import Mathlib

/-!
# SpiritCompanion — verification of the session-monitor core

A shallow embedding of the core of the SpiritCompanion repository
(`EmotionDetection.py`, `FocusRestReminders.py`, frontend `main.py`) and
proofs of the specified properties: the raw-emotion mapping, the label
smoother, the sustained-condition (phone-distraction) detector, the bounded
history store, the focus/rest interval scheduler, and the stop/cleanup path.

Timestamps (Python `time.time()` / `datetime.now()` values) are modelled as
rationals; Python integers are modelled as `Int`/`Nat` as appropriate.
-/

namespace SpiritCompanion

/-! ## Raw-emotion mapping (`EmotionDetection.map_emotion`) -/

/-- Python's `str.lower()`: lower-case every character. -/
def pyLower (s : String) : String := ⟨s.data.map Char.toLower⟩

/-- `map_emotion` from `EmotionDetection.py` lines 41-54: lower-cases the
raw DeepFace label and maps it into one of the five session categories,
defaulting to `"stressed"` for anything unrecognized. -/
def map_emotion (df_emotion : String) : String :=
  let l := pyLower df_emotion
  if l = "angry" then "angry"
  else if l = "fear" ∨ l = "disgust" then "stressed"
  else if l = "happy" then "happy"
  else if l = "sad" then "sad"
  else if l = "neutral" ∨ l = "surprise" then "focused"
  else "stressed"

/-! ## Sustained-condition detector (distraction logic, lines 248-260) -/

/-- `DISTRACTION_THRESHOLD = 4  # seconds` (line 27). -/
def DISTRACTION_THRESHOLD : ℚ := 4

/-- One tick of the distraction logic (lines 250-260 of
`EmotionDetection.py`): given the current `phone_visible_start` state, the
per-tick condition `phone_detected`, and the current wall-clock time `now`
(`time.time()`), returns the new `phone_visible_start` and whether a
distraction event fired (the `emotion_counts["distractions"] += 1` branch). -/
def distractionStep (phone_visible_start : Option ℚ) (phone_detected : Bool)
    (now : ℚ) : Option ℚ × Bool :=
  if phone_detected then
    match phone_visible_start with
    | none => (some now, false)
    | some t0 =>
        if DISTRACTION_THRESHOLD ≤ now - t0 then (none, true)
        else (some t0, false)
  else
    (none, false)

/-- The detector run over a tick trace: `distractionStep` folded along a
list of per-tick `(phone_detected, now)` inputs, as the monitor loop does
once per frame; returns the per-tick `fired` flags in order and the final
`phone_visible_start`. -/
def runDetector (s : Option ℚ) : List (Bool × ℚ) → List Bool × Option ℚ
  | [] => ([], s)
  | (c, tm) :: ticks =>
      let fst := distractionStep s c tm
      let rest := runDetector fst.1 ticks
      (fst.2 :: rest.1, rest.2)

/-! ## Label smoother (`smooth_emotion`, lines 23-24 and 56-58) -/

/-- `WINDOW_SIZE = 5` (line 23). -/
def WINDOW_SIZE : ℕ := 5

/-- `deque(maxlen=WINDOW_SIZE).append(e)`: append on the right; when the
deque is full the oldest (leftmost) element is evicted. -/
def windowAppend (w : List String) (e : String) : List String :=
  let w' := w ++ [e]
  w'.drop (w'.length - WINDOW_SIZE)

/-- The emotion window after the given sequence of pushes into an initially
cleared `emotion_window`. -/
def windowAfter (xs : List String) : List String :=
  xs.foldl windowAppend []

/-- The keys of `Counter(w)` in insertion order, i.e. in order of first
occurrence in `w` (Python dicts, hence `Counter`, preserve insertion
order). -/
def counterKeys (w : List String) : List String :=
  w.foldl (fun ks e => if e ∈ ks then ks else ks ++ [e]) []

/-- The scan `most_common(1)` performs over the counter's keys (via
`heapq.nlargest(1, ...)`, which agrees with a stable descending sort): the
first key, in insertion order, whose count in `w` is maximal — for equal
counts the earlier key wins. -/
def argmaxCount (w : List String) : List String → Option String
  | [] => none
  | k :: ks =>
      match argmaxCount w ks with
      | none => some k
      | some b => if w.count k < w.count b then some b else some k

/-- `Counter(w).most_common(1)[0][0]` — `none` only on an empty window. -/
def mostCommon1 (w : List String) : Option String :=
  argmaxCount w (counterKeys w)

/-- `smooth_emotion` (lines 56-58): append the new label to the window and
return the most common label of the window (paired here with the new
window, since the Python version mutates the global `emotion_window`). -/
def smooth_emotion (w : List String) (new_emotion : String) :
    List String × Option String :=
  let w' := windowAppend w new_emotion
  (w', mostCommon1 w')

/-! ## Bounded history store (`init_db` / `save_session_to_db`) -/

/-- One row of the `sessions` table: the six per-session counters. -/
structure EmotionCounts where
  angry : ℕ
  stressed : ℕ
  happy : ℕ
  sad : ℕ
  focused : ℕ
  distractions : ℕ
deriving DecidableEq, Repr

/-- The `sessions` SQLite table: rows `(id, record)` held in ascending order
of the INTEGER PRIMARY KEY AUTOINCREMENT `id`, together with the next id the
AUTOINCREMENT will assign.  (SQLite AUTOINCREMENT ids start at 1 and only
grow, so the row list is ascending by construction.) -/
structure SessionsDB (α : Type) where
  rows : List (ℕ × α)
  nextId : ℕ
deriving DecidableEq, Repr

/-- A freshly `init_db`-created database: no rows, first id will be 1. -/
def SessionsDB.empty (α : Type) : SessionsDB α := ⟨[], 1⟩

/-- `save_session_to_db` (lines 80-124 of `EmotionDetection.py`): INSERT the
record under the next auto-increment id; then, if `COUNT(*)` exceeds 5,
DELETE the `count - 5` rows with the smallest ids (`ORDER BY id ASC LIMIT
count - 5`) — on the ascending row list this is dropping that many rows from
the front. -/
def save_session_to_db {α : Type} (db : SessionsDB α) (r : α) : SessionsDB α :=
  let inserted := db.rows ++ [(db.nextId, r)]
  let trimmed :=
    if 5 < inserted.length then inserted.drop (inserted.length - 5) else inserted
  ⟨trimmed, db.nextId + 1⟩

/-- The listing query `SELECT ... ORDER BY id DESC LIMIT n` (lines 110-115):
on the ascending row list, reverse (descending ids — newest first) and take
`n`. -/
def listRecent {α : Type} (db : SessionsDB α) (n : ℕ) : List (ℕ × α) :=
  db.rows.reverse.take n

/-- The database obtained from a fresh one by the given sequence of session
saves, oldest first. -/
def historyAfter {α : Type} (rs : List α) : SessionsDB α :=
  rs.foldl save_session_to_db (SessionsDB.empty α)

/-- The full append sequence with its sequence ids `1, 2, ...` attached:
what the store would hold if nothing were ever evicted. -/
def indexedRows {α : Type} (rs : List α) : List (ℕ × α) :=
  (List.range' 1 rs.length).zip rs

/-! ## Stop path (`stop_emotion_detection`) -/

/-- The module-level mutable state of `EmotionDetection.py` that the
start/stop path touches. `cap` is the capture-device handle
(`cv2.VideoCapture`), `none` once released/cleared. -/
structure EDState where
  session_active : Bool
  running : Bool
  cap : Option Unit
  video_websocket : Option Unit
  current_emotion : Option String
  current_phone_detected : Bool
  emotion_counts : EmotionCounts
  db : SessionsDB EmotionCounts
deriving DecidableEq, Repr

/-- Externally visible effects of one `stop_emotion_detection` call:
whether a capture-device release was performed and whether a session record
was appended to the store. -/
structure StopFx where
  released : Bool
  saved : Bool
deriving DecidableEq, Repr

/-- `stop_emotion_detection` (lines 394-474 of `EmotionDetection.py`).
If `session_active` is already false (lines 401-411): only release the
camera if a reference still exists, clear it, and return — no DB save, no
websocket clearing.  Otherwise (lines 413-474): clear the flags and current
readings, release the camera exactly when a reference exists and clear the
reference, save the session counters to the DB, and clear the websocket. -/
def stop_emotion_detection (s : EDState) : EDState × StopFx :=
  if s.session_active = false then
    match s.cap with
    | some _ => ({ s with cap := none }, ⟨true, false⟩)
    | none => (s, ⟨false, false⟩)
  else
    ({ s with
        session_active := false
        running := false
        current_emotion := none
        current_phone_detected := false
        cap := none
        db := save_session_to_db s.db s.emotion_counts
        video_websocket := none },
     ⟨s.cap.isSome, true⟩)

/-! ## Interval scheduler (`FocusRestReminders.py`) -/

/-- Timer phases. -/
inductive PhaseKind
  | focus
  | rest
deriving DecidableEq, Repr

/-- The named outbound transition events `send_notification` is called
with, identified by their `tag` values in `_run_timer`. -/
inductive Note
  | timer_started
  | break_starting_10s
  | break_started
  | break_ending_5s
  | break_ended
  | timer_complete
deriving DecidableEq, Repr

/-- The per-second focus loop (lines 148-168 of `FocusRestReminders.py`).
`d` is `focus_duration`, `rem` the value of `focus_time_remaining` at the
start of the chunk, `es` the successive values `focus_elapsed` takes after
each `time.sleep(1)` (that is `1, 2, ..., d`), and the flag is
`notifications_sent["break_starting_10s"]`.  At the moment of the check at
lines 160-162, `focus_time_remaining = rem - e`. -/
def focusLoop (d rem : ℕ) : List ℕ → Bool → List (ℕ × List Note)
  | [], _ => []
  | e :: es, flag =>
      let fire := !flag && decide (e = d - 10) && decide (10 < rem - e)
      (e, if fire then [Note.break_starting_10s] else []) ::
        focusLoop d rem es (flag || fire)

/-- The per-second rest loop (lines 204-220): `restT` is `RestTime`, `es`
the successive values of `rest_elapsed` (`1, 2, ..., RestTime`), the flag
is `notifications_sent["break_ending_5s"]`; the check at line 214 is
`rest_elapsed >= RestTime - 5`. -/
def restLoop (restT : ℕ) : List ℕ → Bool → List (ℕ × List Note)
  | [], _ => []
  | e :: es, flag =>
      let fire := !flag && decide (restT - 5 ≤ e)
      (e, if fire then [Note.break_ending_5s] else []) ::
        restLoop restT es (flag || fire)

/-- One scheduler phase as actually run: its kind and duration, the events
emitted on entering it, the per-second ticks (each with the events emitted
on that tick), and the events emitted on leaving it. -/
structure Seg where
  kind : PhaseKind
  duration : ℕ
  preNotes : List Note
  ticks : List (ℕ × List Note)
  postNotes : List Note
deriving DecidableEq, Repr

/-- All events a phase emits, in order. -/
def segNotes (s : Seg) : List Note :=
  s.preNotes ++ (s.ticks.map Prod.snd).flatten ++ s.postNotes

/-- The phase signature of a segment: its kind and duration. -/
def Seg.sig (s : Seg) : PhaseKind × ℕ := (s.kind, s.duration)

/-- The main `while timer_state["focus_time_remaining"] > 0` loop of
`_run_timer` (lines 134-236), with no external stop request: `rem` is the
focus budget remaining.  Each iteration runs a focus chunk of
`focus_duration = min RepeatTime rem`; if that exhausts the budget it emits
`timer_complete` and stops (no trailing rest); otherwise a rest phase of
`RestTime` follows, bracketed by `break_started` / `break_ended`.
(`RepeatTime = 0` cannot reach this loop — the validation guard rejects it —
so the model returns `[]` there to stay total.) -/
def runTimerLoop (RepeatTime RestTime : ℕ) (rem : ℕ) : List Seg :=
  if h : rem = 0 ∨ RepeatTime = 0 then []
  else
    let d := min RepeatTime rem
    let fseg : Seg :=
      ⟨PhaseKind.focus, d, [], focusLoop d rem (List.range' 1 d) false,
        if rem - d = 0 then [Note.timer_complete] else []⟩
    if rem - d = 0 then [fseg]
    else
      fseg ::
        ⟨PhaseKind.rest, RestTime, [Note.break_started],
          restLoop RestTime (List.range' 1 RestTime) false,
          [Note.break_ended]⟩ ::
        runTimerLoop RepeatTime RestTime (rem - d)
termination_by rem
decreasing_by
  simp only [not_or] at h
  omega

/-- The observable outcome of one `_run_timer` call: either the validation
failure at lines 115-117 (reached before any `timer_state` write or any
notification — the scheduler never enters the running state), or a
completed run with its emitted events and phases. -/
inductive RunOutcome
  | rejected (msg : String)
  | ran (preNotes : List Note) (segs : List Seg)
deriving DecidableEq, Repr

/-- The phases an outcome entered (none for a rejected start). -/
def RunOutcome.segs : RunOutcome → List Seg
  | .rejected _ => []
  | .ran _ segs => segs

/-- `_run_timer` (lines 107-240): validate that the three configured times
are nonzero — `FocusTime`, `RestTime` and `RepeatTime` are module globals
initialized to 0, so "missing" means still 0 — and on failure print the
descriptive error and return before the state is reset or `is_running` is
set; otherwise emit `timer_started` and run the phase loop. -/
def run_timer (FocusTime RestTime RepeatTime : ℕ) : RunOutcome :=
  if FocusTime = 0 ∨ RestTime = 0 ∨ RepeatTime = 0 then
    RunOutcome.rejected
      "Error: Focus, Rest, and Repeat times must be set before starting the timer."
  else
    RunOutcome.ran [Note.timer_started]
      (runTimerLoop RepeatTime RestTime FocusTime)

/-- Modelled from the spec: "Total focus budget is consumed in chunks of
`min(check_interval, focus_remaining)`" — the chunk sequence itself, used to
compare the scheduler's run against the spec's description. -/
def specChunks (check : ℕ) (total : ℕ) : List ℕ :=
  if h : total = 0 ∨ check = 0 then []
  else min check total :: specChunks check (total - min check total)
termination_by total
decreasing_by
  simp only [not_or] at h
  omega

/-- The `timer_state` fields that `get_timer_state` reads and writes. -/
structure TimerState where
  is_running : Bool
  phase : Option PhaseKind
  phase_start_time : Option ℚ
  phase_duration : ℚ
  elapsed_time : ℚ
  time_remaining : ℚ
deriving DecidableEq, Repr

/-- `get_timer_state` (lines 61-79 of `FocusRestReminders.py`), polled at
wall-clock time `now` (`datetime.now()`): if the timer is running and a
phase start time is set, recompute `elapsed_time = now - phase_start_time`
(not clamped) and `time_remaining = max 0 (phase_duration - elapsed)`
(clamped at 0), then return a copy of the state. -/
def get_timer_state (st : TimerState) (now : ℚ) : TimerState :=
  if st.is_running = false then st
  else
    match st.phase_start_time with
    | none => st
    | some t0 =>
        { st with
            elapsed_time := now - t0
            time_remaining := max 0 (st.phase_duration - (now - t0)) }

end SpiritCompanion

namespace SpiritCompanion

/-! ## Theorems: C10 and C1 -/

/-- C10: `map_emotion` is total and closed over the five session categories;
case-insensitively, "angry" maps to angry, "fear"/"disgust" to stressed,
"happy" to happy, "sad" to sad, "neutral"/"surprise" to focused, and every
other string maps to stressed. -/
theorem C10_map_emotion_total (e : String) :
    (map_emotion e = "angry" ∨ map_emotion e = "stressed" ∨
     map_emotion e = "happy" ∨ map_emotion e = "sad" ∨
     map_emotion e = "focused") ∧
    (pyLower e = "angry" → map_emotion e = "angry") ∧
    ((pyLower e = "fear" ∨ pyLower e = "disgust") → map_emotion e = "stressed") ∧
    (pyLower e = "happy" → map_emotion e = "happy") ∧
    (pyLower e = "sad" → map_emotion e = "sad") ∧
    ((pyLower e = "neutral" ∨ pyLower e = "surprise") → map_emotion e = "focused") ∧
    (pyLower e ∉ (["angry", "fear", "disgust", "happy", "sad", "neutral",
      "surprise"] : List String) → map_emotion e = "stressed") := by
  simp only [map_emotion]
  split_ifs with h1 h2 h3 h4 h5 <;>
    (try rcases h2 with h2 | h2) <;> (try rcases h5 with h5 | h5) <;> simp_all

/-- Witness for C10 at the concrete input "Angry". -/
theorem C10_map_emotion_total_witness : map_emotion "Angry" = "angry" :=
  (C10_map_emotion_total "Angry").2.1 (by decide)

/-- C1: one tick of the distraction logic. If the condition is false the
state clears and no event fires; if true with no accrual start, the start is
set to `now` and no event fires; if true with accrual running from `t0`, the
event fires iff `now - t0 ≥ DISTRACTION_THRESHOLD`, and on firing the state
clears to none. -/
theorem C1_distraction_step (s : Option ℚ) (cond : Bool) (now : ℚ) :
    (cond = false → distractionStep s cond now = (none, false)) ∧
    (cond = true → s = none → distractionStep s cond now = (some now, false)) ∧
    (∀ t0, cond = true → s = some t0 →
      (((distractionStep s cond now).2 = true) ↔
        DISTRACTION_THRESHOLD ≤ now - t0) ∧
      ((distractionStep s cond now).2 = true →
        (distractionStep s cond now).1 = none)) := by
  refine ⟨?_, ?_, ?_⟩
  · intro hc; subst hc; simp [distractionStep]
  · intro hc hs; subst hc; subst hs; simp [distractionStep]
  · intro t0 hc hs; subst hc; subst hs
    by_cases h : DISTRACTION_THRESHOLD ≤ now - t0 <;>
      simp [distractionStep, h]

/-- Witness for C1: with accrual started at time 0 and polled at time 4, the
event fires and the state clears. -/
theorem C1_distraction_step_witness :
    ((distractionStep (some 0) true 4).2 = true ↔
      DISTRACTION_THRESHOLD ≤ (4 : ℚ) - 0) ∧
    distractionStep (none : Option ℚ) true 7 = (some 7, false) :=
  ⟨((C1_distraction_step (some 0) true 4).2.2 0 rfl rfl).1,
   (C1_distraction_step none true 7).2.1 rfl rfl⟩

/-! ## Theorems: C3 (bounded history) and C8 (idempotent stop) -/

theorem length_indexedRows {α : Type} (rs : List α) :
    (indexedRows rs).length = rs.length := by
  simp [indexedRows]

theorem indexedRows_concat {α : Type} (rs : List α) (r : α) :
    indexedRows (rs ++ [r]) = indexedRows rs ++ [(rs.length + 1, r)] := by
  simp only [indexedRows, List.length_append, List.length_singleton]
  rw [List.range'_1_concat, List.zip_append (by simp)]
  simp [Nat.add_comm]

/-- Structure of the store after any append sequence: the next id is the
append count plus one, and the rows are exactly the (at most five) most
recent appends with their sequence ids, in ascending id order. -/
theorem historyAfter_rows {α : Type} (rs : List α) :
    (historyAfter rs).nextId = rs.length + 1 ∧
    (historyAfter rs).rows = (indexedRows rs).drop (rs.length - 5) := by
  induction rs using List.reverseRecOn with
  | nil => exact ⟨rfl, rfl⟩
  | append_singleton rs r ih =>
    obtain ⟨hid, hrows⟩ := ih
    have hfold :
        historyAfter (rs ++ [r]) = save_session_to_db (historyAfter rs) r := by
      simp [historyAfter, List.foldl_append]
    have hlen : ((indexedRows rs).drop (rs.length - 5)).length =
        rs.length - (rs.length - 5) := by
      rw [List.length_drop, length_indexedRows]
    rw [hfold]
    simp only [save_session_to_db, hid, hrows]
    refine ⟨by simp, ?_⟩
    rw [indexedRows_concat]
    by_cases h5 : 5 ≤ rs.length
    · have hcond : 5 < ((indexedRows rs).drop (rs.length - 5) ++
          [(rs.length + 1, r)]).length := by
        rw [List.length_append, hlen, List.length_singleton]; omega
      rw [if_pos hcond]
      have h1 : ((indexedRows rs).drop (rs.length - 5) ++
          [(rs.length + 1, r)]).length - 5 = 1 := by
        rw [List.length_append, hlen, List.length_singleton]; omega
      have h2 : (rs ++ [r]).length - 5 = rs.length - 4 := by
        rw [List.length_append, List.length_singleton]; omega
      rw [h1, h2]
      rw [List.drop_append_of_le_length (by rw [hlen]; omega),
        List.drop_drop,
        List.drop_append_of_le_length (by rw [length_indexedRows]; omega)]
      congr 2
      omega
    · have hcond : ¬ 5 < ((indexedRows rs).drop (rs.length - 5) ++
          [(rs.length + 1, r)]).length := by
        rw [List.length_append, hlen, List.length_singleton]; omega
      rw [if_neg hcond]
      have h2 : (rs ++ [r]).length - 5 = 0 := by
        rw [List.length_append, List.length_singleton]; omega
      have h3 : rs.length - 5 = 0 := by omega
      rw [h2, h3, List.drop_zero, List.drop_zero]

/-- C3: with K = 5, after any sequence of appends the stored count is at
most 5; and once more than 5 records have been appended, the count is
exactly 5 and the listing query returns exactly the 5 most recently
appended records, newest first (descending sequence id). -/
theorem C3_bounded_history_store {α : Type} (rs : List α) :
    (historyAfter rs).rows.length ≤ 5 ∧
    (5 < rs.length →
      (historyAfter rs).rows.length = 5 ∧
      listRecent (historyAfter rs) 5 = (indexedRows rs).reverse.take 5) := by
  obtain ⟨-, hrows⟩ := historyAfter_rows rs
  have hlen : (historyAfter rs).rows.length = rs.length - (rs.length - 5) := by
    rw [hrows, List.length_drop, length_indexedRows]
  refine ⟨by omega, fun h => ⟨by omega, ?_⟩⟩
  unfold listRecent
  rw [hrows, List.reverse_drop, length_indexedRows]
  rw [List.take_take]
  congr 1
  omega

/-- Witness for C3 at a concrete six-element append sequence. -/
theorem C3_bounded_history_store_witness :
    (historyAfter ([10, 20, 30, 40, 50, 60] : List ℕ)).rows.length = 5 ∧
    listRecent (historyAfter ([10, 20, 30, 40, 50, 60] : List ℕ)) 5 =
      (indexedRows ([10, 20, 30, 40, 50, 60] : List ℕ)).reverse.take 5 :=
  (C3_bounded_history_store [10, 20, 30, 40, 50, 60]).2 (by decide)

/-- C8: a second `stop_emotion_detection` call, after a completed stop, is a
no-op: the state (including the history store and the cleared camera
reference) is unchanged, no capture-device release is performed, and no
session record is appended. -/
theorem C8_double_stop (s : EDState) (h : s.session_active = true) :
    stop_emotion_detection (stop_emotion_detection s).1 =
      ((stop_emotion_detection s).1, ⟨false, false⟩) := by
  simp [stop_emotion_detection, h]

/-! ## Theorems: C4 (label smoother) -/

theorem mem_counterKeys_aux (w acc : List String) (x : String) :
    x ∈ w.foldl (fun ks e => if e ∈ ks then ks else ks ++ [e]) acc ↔
      x ∈ acc ∨ x ∈ w := by
  induction w generalizing acc with
  | nil => simp
  | cons a w ih =>
    simp only [List.foldl_cons]
    by_cases h : a ∈ acc
    · rw [if_pos h, ih]
      simp only [List.mem_cons]
      constructor
      · tauto
      · rintro (hx | rfl | hx) <;> tauto
    · rw [if_neg h, ih]
      simp only [List.mem_append, List.mem_singleton, List.mem_cons]
      tauto

/-- The counter's key set is exactly the set of labels in the window. -/
theorem mem_counterKeys (w : List String) (x : String) :
    x ∈ counterKeys w ↔ x ∈ w := by
  simpa [counterKeys] using mem_counterKeys_aux w [] x

/-- The scan underlying `most_common(1)`: on a nonempty key list it returns
a key of maximal count, and precisely the first such key in key order. -/
theorem argmaxCount_spec (w : List String) (ks : List String) (hks : ks ≠ []) :
    ∃ b, argmaxCount w ks = some b ∧ b ∈ ks ∧
      (∀ y ∈ ks, w.count y ≤ w.count b) ∧
      ks.find? (fun k => w.count k == w.count b) = some b := by
  induction ks with
  | nil => exact absurd rfl hks
  | cons k ks ih =>
    by_cases hk : ks = []
    · subst hk
      refine ⟨k, rfl, List.mem_singleton_self k, ?_, ?_⟩
      · intro y hy
        rcases List.mem_singleton.mp hy with rfl
        exact le_refl _
      · simp [List.find?]
    · obtain ⟨b, hb, hbmem, hbmax, hbfind⟩ := ih hk
      by_cases hcmp : w.count k < w.count b
      · refine ⟨b, ?_, List.mem_cons_of_mem _ hbmem, ?_, ?_⟩
        · simp only [argmaxCount, hb]
          rw [if_pos hcmp]
        · intro y hy
          rcases List.mem_cons.mp hy with rfl | hy
          · exact le_of_lt hcmp
          · exact hbmax y hy
        · rw [List.find?_cons_of_neg _ (by simp [Nat.ne_of_lt hcmp]), hbfind]
      · refine ⟨k, ?_, List.mem_cons_self k ks, ?_, ?_⟩
        · simp only [argmaxCount, hb]
          rw [if_neg hcmp]
        · intro y hy
          rcases List.mem_cons.mp hy with rfl | hy
          · exact le_refl _
          · exact le_trans (hbmax y hy) (Nat.le_of_not_lt hcmp)
        · exact List.find?_cons_of_pos _ (by simp)

theorem windowAppend_ne_nil (w : List String) (e : String) :
    windowAppend w e ≠ [] := by
  intro h
  have hlen : (windowAppend w e).length =
      (w.length + 1) - ((w.length + 1) - WINDOW_SIZE) := by
    simp [windowAppend]
  rw [h] at hlen
  simp only [List.length_nil, WINDOW_SIZE] at hlen
  omega

/-- The window after any push sequence is exactly the last
`min (length, WINDOW_SIZE)` pushed labels, in push order. -/
theorem windowAfter_eq (xs : List String) :
    windowAfter xs = xs.drop (xs.length - WINDOW_SIZE) := by
  induction xs using List.reverseRecOn with
  | nil => rfl
  | append_singleton xs e ih =>
    have hfold : windowAfter (xs ++ [e]) = windowAppend (windowAfter xs) e := by
      simp [windowAfter, List.foldl_append]
    rw [hfold, ih]
    simp only [windowAppend, WINDOW_SIZE]
    by_cases h5 : 5 ≤ xs.length
    · have h1 : (xs.drop (xs.length - 5) ++ [e]).length - 5 = 1 := by
        rw [List.length_append, List.length_drop, List.length_singleton]
        omega
      have h2 : (xs ++ [e]).length - 5 = xs.length - 4 := by
        rw [List.length_append, List.length_singleton]
        omega
      rw [h1, h2]
      rw [List.drop_append_of_le_length (by rw [List.length_drop]; omega),
        List.drop_drop,
        List.drop_append_of_le_length (by omega)]
      congr 2
      omega
    · have h1 : (xs.drop (xs.length - 5) ++ [e]).length - 5 = 0 := by
        rw [List.length_append, List.length_drop, List.length_singleton]
        omega
      have h2 : (xs ++ [e]).length - 5 = 0 := by
        rw [List.length_append, List.length_singleton]
        omega
      have h3 : xs.length - 5 = 0 := by omega
      rw [h1, h2, h3, List.drop_zero, List.drop_zero, List.drop_zero]

/-- C4: pushing a label after any prior push sequence, the smoother's window
is exactly the last `min (n, 5)` pushed labels, and the returned label is a
member of that window, has maximal count in it, and is the first key of the
counting structure (insertion order = first occurrence) achieving that
count — ties broken by first-seen-most-frequent. -/
theorem C4_label_smoother (xs : List String) (e : String) :
    (smooth_emotion (windowAfter xs) e).1 =
      (xs ++ [e]).drop ((xs ++ [e]).length - WINDOW_SIZE) ∧
    ∃ l, (smooth_emotion (windowAfter xs) e).2 = some l ∧
      l ∈ (smooth_emotion (windowAfter xs) e).1 ∧
      (∀ y ∈ (smooth_emotion (windowAfter xs) e).1,
        (smooth_emotion (windowAfter xs) e).1.count y ≤
          (smooth_emotion (windowAfter xs) e).1.count l) ∧
      (counterKeys (smooth_emotion (windowAfter xs) e).1).find?
        (fun k => (smooth_emotion (windowAfter xs) e).1.count k ==
          (smooth_emotion (windowAfter xs) e).1.count l) = some l := by
  have hwin : (smooth_emotion (windowAfter xs) e).1 =
      windowAppend (windowAfter xs) e := rfl
  constructor
  · rw [hwin]
    have : windowAppend (windowAfter xs) e = windowAfter (xs ++ [e]) := by
      simp [windowAfter, List.foldl_append]
    rw [this, windowAfter_eq]
  · set w' := windowAppend (windowAfter xs) e with hw'
    have hne : w' ≠ [] := windowAppend_ne_nil _ _
    have hkeysne : counterKeys w' ≠ [] := by
      intro hk
      rcases List.exists_mem_of_ne_nil w' hne with ⟨x, hx⟩
      have := (mem_counterKeys w' x).mpr hx
      rw [hk] at this
      exact List.not_mem_nil x this
    obtain ⟨b, hb, hbmem, hbmax, hbfind⟩ := argmaxCount_spec w' _ hkeysne
    refine ⟨b, ?_, ?_, ?_, hbfind⟩
    · exact hb
    · exact (mem_counterKeys w' b).mp hbmem
    · intro y hy
      exact hbmax y ((mem_counterKeys w' y).mpr hy)

/-- Witness for C4 at a concrete push sequence. -/
theorem C4_label_smoother_witness :
    ∃ l, (smooth_emotion (windowAfter ["happy", "sad"]) "sad").2 = some l ∧
      l ∈ (smooth_emotion (windowAfter ["happy", "sad"]) "sad").1 := by
  obtain ⟨-, l, h1, h2, -, -⟩ := C4_label_smoother ["happy", "sad"] "sad"
  exact ⟨l, h1, h2⟩

/-- Witness for C8 at a concrete running state. -/
theorem C8_double_stop_witness :
    stop_emotion_detection
        (stop_emotion_detection
          ⟨true, true, some (), some (), some "happy", false,
            ⟨1, 2, 3, 4, 5, 6⟩, SessionsDB.empty EmotionCounts⟩).1 =
      ((stop_emotion_detection
          ⟨true, true, some (), some (), some "happy", false,
            ⟨1, 2, 3, 4, 5, 6⟩, SessionsDB.empty EmotionCounts⟩).1,
        ⟨false, false⟩) :=
  C8_double_stop _ rfl

/-! ## Theorems: C6 (validation) and C2 (chunk/rest structure) -/

/-- C6: with a zero (equivalently, never-set — the globals are initialized
to 0) focus, rest, or repeat duration, the run is rejected by the
validation guard with a descriptive error message; the guard precedes the
`is_running := True` write and every phase entry, so the scheduler never
enters the running state and enters no phase. -/
theorem C6_zero_config_rejected (F R Re : ℕ) (h : F = 0 ∨ R = 0 ∨ Re = 0) :
    ∃ msg, run_timer F R Re = RunOutcome.rejected msg ∧ msg ≠ "" ∧
      (run_timer F R Re).segs = [] := by
  refine ⟨"Error: Focus, Rest, and Repeat times must be set before starting the timer.",
    ?_, by decide, ?_⟩ <;> simp [run_timer, RunOutcome.segs, h]

/-- Witness for C6: a zero focus duration is rejected. -/
theorem C6_zero_config_rejected_witness :
    ∃ msg, run_timer 0 10 60 = RunOutcome.rejected msg ∧ msg ≠ "" ∧
      (run_timer 0 10 60).segs = [] :=
  C6_zero_config_rejected 0 10 60 (Or.inl rfl)

theorem specChunks_zero (C : ℕ) : specChunks C 0 = [] := by
  rw [specChunks]
  simp

theorem specChunks_ne_nil (C t : ℕ) (hC : 0 < C) (ht : 0 < t) :
    specChunks C t ≠ [] := by
  rw [specChunks, dif_neg (by omega : ¬ (t = 0 ∨ C = 0))]
  simp

theorem runTimerLoop_ne_nil (C R rem : ℕ) (hC : 0 < C) (hrem : 0 < rem) :
    runTimerLoop C R rem ≠ [] := by
  rw [runTimerLoop, dif_neg (by omega : ¬ (rem = 0 ∨ C = 0))]
  by_cases h0 : rem - min C rem = 0
  · rw [if_pos h0]; simp
  · rw [if_neg h0]; simp

/-- The phase signature of the scheduler's run refines the spec's chunk
description: the phases are exactly the spec's focus chunks with rest
phases of `RestTime` interspersed between consecutive chunks. -/
theorem runTimerLoop_sig (C R : ℕ) (hC : 0 < C) :
    ∀ rem, 0 < rem →
      (runTimerLoop C R rem).map Seg.sig =
        List.intersperse (PhaseKind.rest, R)
          ((specChunks C rem).map fun d => (PhaseKind.focus, d)) := by
  intro rem
  induction rem using Nat.strong_induction_on with
  | _ rem ih =>
    intro hrem
    have hcond : ¬ (rem = 0 ∨ C = 0) := by omega
    rw [runTimerLoop, dif_neg hcond, specChunks, dif_neg hcond]
    by_cases h0 : rem - min C rem = 0
    · rw [if_pos h0, h0, specChunks_zero]
      simp [Seg.sig]
    · rw [if_neg h0]
      have hrec := ih (rem - min C rem) (by omega) (by omega)
      have hne : specChunks C (rem - min C rem) ≠ [] :=
        specChunks_ne_nil C _ hC (by omega)
      cases hch : specChunks C (rem - min C rem) with
      | nil => exact absurd hch hne
      | cons c cs =>
          rw [hch] at hrec
          simp only [List.map_cons] at hrec
          simp only [List.map_cons, List.intersperse_cons_cons]
          rw [← hrec]
          simp [Seg.sig]

/-- The scheduler's run always ends with the budget-exhausting focus chunk,
which carries the `timer_complete` event — no trailing rest. -/
theorem runTimerLoop_last (C R : ℕ) (hC : 0 < C) :
    ∀ rem, 0 < rem →
      ((runTimerLoop C R rem).getLast?).map Seg.postNotes =
        some [Note.timer_complete] := by
  intro rem
  induction rem using Nat.strong_induction_on with
  | _ rem ih =>
    intro hrem
    have hcond : ¬ (rem = 0 ∨ C = 0) := by omega
    rw [runTimerLoop, dif_neg hcond]
    by_cases h0 : rem - min C rem = 0
    · rw [if_pos h0]
      simp [h0]
    · rw [if_neg h0]
      have hrec := ih (rem - min C rem) (by omega) (by omega)
      have hne := runTimerLoop_ne_nil C R (rem - min C rem) hC (by omega)
      cases hl : runTimerLoop C R (rem - min C rem) with
      | nil => exact absurd hl hne
      | cons a l =>
          rw [hl] at hrec
          rw [List.getLast?_cons_cons, List.getLast?_cons_cons]
          exact hrec

/-- C2: for every positive configuration, the run consumes the budget in
chunks of `min (check_interval, focus_remaining)` (the spec's chunk list),
with exactly one rest of `rest_duration` between consecutive focus chunks,
and completes at the exhausting chunk with no trailing rest. -/
theorem C2_interval_scheduler (F R C : ℕ) (hF : 0 < F) (hR : 0 < R)
    (hC : 0 < C) :
    run_timer F R C = RunOutcome.ran [Note.timer_started] (runTimerLoop C R F) ∧
    (runTimerLoop C R F).map Seg.sig =
      List.intersperse (PhaseKind.rest, R)
        ((specChunks C F).map fun d => (PhaseKind.focus, d)) ∧
    ((runTimerLoop C R F).getLast?).map Seg.postNotes =
      some [Note.timer_complete] := by
  refine ⟨?_, runTimerLoop_sig C R hC F hF, runTimerLoop_last C R hC F hF⟩
  rw [run_timer, if_neg (by omega)]

/-- Witness for C2: the spec's worked example `focus_total = 125`,
`check_interval = 60`, `rest_duration = 10` gives the phase sequence
focus(60), rest(10), focus(60), rest(10), focus(5), then completion, with
no trailing rest. -/
theorem C2_interval_scheduler_witness :
    (runTimerLoop 60 10 125).map Seg.sig =
      [(PhaseKind.focus, 60), (PhaseKind.rest, 10), (PhaseKind.focus, 60),
        (PhaseKind.rest, 10), (PhaseKind.focus, 5)] ∧
    ((runTimerLoop 60 10 125).getLast?).map Seg.postNotes =
      some [Note.timer_complete] := by
  obtain ⟨-, hsig, hlast⟩ :=
    C2_interval_scheduler 125 10 60 (by norm_num) (by norm_num) (by norm_num)
  refine ⟨?_, hlast⟩
  rw [hsig]
  have hch : specChunks 60 125 = [60, 60, 5] := by simp [specChunks]
  rw [hch]
  rfl

/-! ## Theorems: C7 (notification discipline) -/

/-- Once the `break_starting_10s` flag is set, the focus loop emits no
further events. -/
theorem focusLoop_flag_true (d rem : ℕ) (es : List ℕ) :
    focusLoop d rem es true = es.map fun e => (e, ([] : List Note)) := by
  induction es with
  | nil => rfl
  | cons e es ih => simp [focusLoop, ih]

/-- Once the `break_ending_5s` flag is set, the rest loop emits no further
events. -/
theorem restLoop_flag_true (restT : ℕ) (es : List ℕ) :
    restLoop restT es true = es.map fun e => (e, ([] : List Note)) := by
  induction es with
  | nil => rfl
  | cons e es ih => simp [restLoop, ih]

theorem flatten_blank (es : List ℕ) :
    (es.map fun _ => ([] : List Note)).flatten = [] := by
  induction es with
  | nil => rfl
  | cons e es ih => simpa using ih

/-- The focus loop emits `break_starting_10s` at most once. -/
theorem focusLoop_count_le (d rem : ℕ) (es : List ℕ) :
    ((focusLoop d rem es false).map Prod.snd).flatten.count
      Note.break_starting_10s ≤ 1 := by
  induction es with
  | nil => simp [focusLoop]
  | cons e es ih =>
    simp only [focusLoop, Bool.not_false, Bool.true_and]
    cases hfire : (decide (e = d - 10) && decide (10 < rem - e)) with
    | false => simpa using ih
    | true => simp [focusLoop_flag_true, Function.comp_def, flatten_blank]

/-- The focus loop emits nothing but `break_starting_10s`. -/
theorem focusLoop_count_other (d rem : ℕ) (es : List ℕ) (flag : Bool)
    (n : Note) (hn : n ≠ Note.break_starting_10s) :
    ((focusLoop d rem es flag).map Prod.snd).flatten.count n = 0 := by
  induction es generalizing flag with
  | nil => simp [focusLoop]
  | cons e es ih =>
    simp only [focusLoop, List.map_cons, List.flatten_cons, List.count_append]
    rw [ih]
    cases hfire : (!flag && decide (e = d - 10) && decide (10 < rem - e)) <;>
      simp [hn]

/-- The rest loop emits `break_ending_5s` at most once. -/
theorem restLoop_count_le (restT : ℕ) (es : List ℕ) :
    ((restLoop restT es false).map Prod.snd).flatten.count
      Note.break_ending_5s ≤ 1 := by
  induction es with
  | nil => simp [restLoop]
  | cons e es ih =>
    simp only [restLoop, Bool.not_false, Bool.true_and]
    cases hfire : decide (restT - 5 ≤ e) with
    | false => simpa using ih
    | true => simp [restLoop_flag_true, Function.comp_def, flatten_blank]

/-- The rest loop emits nothing but `break_ending_5s`. -/
theorem restLoop_count_other (restT : ℕ) (es : List ℕ) (flag : Bool)
    (n : Note) (hn : n ≠ Note.break_ending_5s) :
    ((restLoop restT es flag).map Prod.snd).flatten.count n = 0 := by
  induction es generalizing flag with
  | nil => simp [restLoop]
  | cons e es ih =>
    simp only [restLoop, List.map_cons, List.flatten_cons, List.count_append]
    rw [ih]
    cases hfire : (!flag && decide (restT - 5 ≤ e)) <;> simp [hn]

/-- A focus segment (with either completion post-event or none) emits each
named event at most once. -/
theorem fseg_once (d rem : ℕ) (post : List Note)
    (hpost : post = [Note.timer_complete] ∨ post = []) (n : Note) :
    (segNotes ⟨PhaseKind.focus, d, [], focusLoop d rem (List.range' 1 d) false,
      post⟩).count n ≤ 1 := by
  simp only [segNotes, List.count_append]
  by_cases hn : n = Note.break_starting_10s
  · subst hn
    have h1 := focusLoop_count_le d rem (List.range' 1 d)
    have h2 : post.count Note.break_starting_10s = 0 := by
      rcases hpost with rfl | rfl <;> decide
    simp only [h2]
    simpa using h1
  · have h1 := focusLoop_count_other d rem (List.range' 1 d) false n hn
    have h2 : post.count n ≤ 1 := by
      rcases hpost with rfl | rfl
      · cases n <;> simp
      · simp
    simp only [h1]
    simpa using h2

/-- A rest segment emits each named event at most once. -/
theorem restseg_once (R : ℕ) (n : Note) :
    (segNotes ⟨PhaseKind.rest, R, [Note.break_started],
      restLoop R (List.range' 1 R) false, [Note.break_ended]⟩).count n ≤ 1 := by
  simp only [segNotes, List.count_append]
  by_cases hn : n = Note.break_ending_5s
  · subst hn
    have h1 := restLoop_count_le R (List.range' 1 R)
    have h2 : List.count Note.break_ending_5s [Note.break_started] = 0 := by decide
    have h3 : List.count Note.break_ending_5s [Note.break_ended] = 0 := by decide
    simp only [h2, h3]
    simpa using h1
  · have h1 := restLoop_count_other R (List.range' 1 R) false n hn
    simp only [h1]
    cases n <;> simp_all

/-- Every phase the scheduler enters emits each named event at most once
— no notification is re-sent on the ticks of the same phase. -/
theorem runTimerLoop_once (C R : ℕ) :
    ∀ rem, ∀ seg ∈ runTimerLoop C R rem, ∀ n : Note,
      (segNotes seg).count n ≤ 1 := by
  intro rem
  induction rem using Nat.strong_induction_on with
  | _ rem ih =>
    intro seg hseg n
    rw [runTimerLoop] at hseg
    by_cases hcond : rem = 0 ∨ C = 0
    · rw [dif_pos hcond] at hseg
      exact absurd hseg (List.not_mem_nil seg)
    · rw [dif_neg hcond] at hseg
      by_cases h0 : rem - min C rem = 0
      · rw [if_pos h0] at hseg
        rcases List.mem_singleton.mp hseg with rfl
        rw [if_pos h0]
        exact fseg_once _ _ _ (Or.inl rfl) n
      · rw [if_neg h0] at hseg
        rcases List.mem_cons.mp hseg with rfl | hseg
        · rw [if_neg h0]
          exact fseg_once _ _ _ (Or.inr rfl) n
        · rcases List.mem_cons.mp hseg with rfl | hseg
          · exact restseg_once R n
          · exact ih (rem - min C rem) (by omega) seg hseg n

/-- `timer_complete` is emitted exactly once over a whole (positive-budget)
run, by the budget-exhausting focus chunk. -/
theorem runTimerLoop_complete_once (C R : ℕ) (hC : 0 < C) :
    ∀ rem, 0 < rem →
      ((runTimerLoop C R rem).map segNotes).flatten.count
        Note.timer_complete = 1 := by
  intro rem
  induction rem using Nat.strong_induction_on with
  | _ rem ih =>
    intro hrem
    have hcond : ¬ (rem = 0 ∨ C = 0) := by omega
    rw [runTimerLoop, dif_neg hcond]
    have hticks := focusLoop_count_other (min C rem) rem (List.range' 1 (min C rem))
      false Note.timer_complete (by decide)
    by_cases h0 : rem - min C rem = 0
    · rw [if_pos h0]
      simp [segNotes, hticks, h0]
    · rw [if_neg h0]
      have hrticks := restLoop_count_other R (List.range' 1 R) false
        Note.timer_complete (by decide)
      have hrec := ih (rem - min C rem) (by omega) (by omega)
      simp [segNotes, hticks, hrticks, hrec, h0]

/-- `timer_started` is never re-emitted by any phase of the loop (it is
emitted once, before the loop). -/
theorem runTimerLoop_no_started (C R : ℕ) :
    ∀ rem, ((runTimerLoop C R rem).map segNotes).flatten.count
      Note.timer_started = 0 := by
  intro rem
  induction rem using Nat.strong_induction_on with
  | _ rem ih =>
    rw [runTimerLoop]
    by_cases hcond : rem = 0 ∨ C = 0
    · rw [dif_pos hcond]
      simp
    · rw [dif_neg hcond]
      have hticks := focusLoop_count_other (min C rem) rem
        (List.range' 1 (min C rem)) false Note.timer_started (by decide)
      by_cases h0 : rem - min C rem = 0
      · rw [if_pos h0]
        simp [segNotes, hticks, h0]
      · rw [if_neg h0]
        have hrticks := restLoop_count_other R (List.range' 1 R) false
          Note.timer_started (by decide)
        have hrec := ih (rem - min C rem) (by omega)
        simp [segNotes, hticks, hrticks, hrec, h0]


/-- Tick-level characterization of `break_starting_10s` in a focus chunk of
duration `d` started with `rem` budget remaining: it is emitted exactly at
the tick 10 seconds before the chunk's end (which exists only when
`11 ≤ d`), and exactly when the chunk does not exhaust the budget
(`d < rem`, i.e. a rest will follow). -/
theorem focusLoop_mem_iff (d rem : ℕ) (hdr : d ≤ rem) :
    ∀ es : List ℕ, (∀ e ∈ es, 1 ≤ e ∧ e ≤ d) → es.Nodup →
      ∀ t ∈ focusLoop d rem es false,
        (Note.break_starting_10s ∈ t.2 ↔
          (t.1 = d - 10 ∧ 11 ≤ d ∧ d < rem)) := by
  intro es
  induction es with
  | nil =>
    intro _ _ t ht
    exact absurd ht (List.not_mem_nil t)
  | cons e es ih =>
    intro hbnd hnd t ht
    obtain ⟨hb1, hb2⟩ := hbnd e (List.mem_cons_self e es)
    obtain ⟨hnotmem, hnd'⟩ := List.nodup_cons.mp hnd
    simp only [focusLoop, Bool.not_false, Bool.true_and] at ht
    cases hfire : (decide (e = d - 10) && decide (10 < rem - e)) with
    | false =>
        rw [hfire] at ht
        simp only [Bool.or_false] at ht
        have hnf : ¬ (e = d - 10 ∧ 10 < rem - e) := by
          rintro ⟨h1, h2⟩
          simp [h1, h2] at hfire
          omega
        have hht : t = (e, ([] : List Note)) ∨ t ∈ focusLoop d rem es false := by
          simpa using ht
        rcases hht with rfl | htl
        · constructor
          · intro hmem
            exact absurd hmem (List.not_mem_nil _)
          · rintro ⟨h1, h2, h3⟩
            have h1' : e = d - 10 := by simpa using h1
            exact absurd (⟨h1', by omega⟩ : e = d - 10 ∧ 10 < rem - e) hnf
        · exact ih (fun x hx => hbnd x (List.mem_cons_of_mem _ hx)) hnd' t htl
    | true =>
        rw [hfire] at ht
        obtain ⟨hp, hq⟩ : e = d - 10 ∧ 10 < rem - e := by
          simpa using hfire
        simp only [Bool.or_true] at ht
        rw [focusLoop_flag_true] at ht
        have hht : t = (e, [Note.break_starting_10s]) ∨
            t ∈ es.map fun x => (x, ([] : List Note)) := by
          simpa using ht
        rcases hht with rfl | htl
        · constructor
          · intro _
            exact ⟨hp, by omega, by omega⟩
          · intro _
            simp
        · obtain ⟨x, hx, rfl⟩ := List.mem_map.mp htl
          simp only [List.not_mem_nil, false_iff]
          rintro ⟨h1, -, -⟩
          have h1' : x = d - 10 := by simpa using h1
          have hxe : x = e := by omega
          exact hnotmem (hxe ▸ hx)

/-- `break_starting_10s` over the whole run: within any focus segment of
the run, a tick carries it exactly when it is the tick 10 seconds before
the segment's end and further segments (starting with the following rest)
exist. -/
theorem runTimerLoop_bs10 (C R : ℕ) (hC : 0 < C) :
    ∀ rem, ∀ pre seg post,
      runTimerLoop C R rem = pre ++ seg :: post →
      seg.kind = PhaseKind.focus →
      ∀ t ∈ seg.ticks,
        (Note.break_starting_10s ∈ t.2 ↔
          (t.1 = seg.duration - 10 ∧ 11 ≤ seg.duration ∧ post ≠ [])) := by
  intro rem
  induction rem using Nat.strong_induction_on with
  | _ rem ih =>
    intro pre seg post hdec hkind t ht
    by_cases hcond : rem = 0 ∨ C = 0
    · rw [runTimerLoop, dif_pos hcond] at hdec
      exact absurd hdec.symm
        (List.append_ne_nil_of_right_ne_nil pre (List.cons_ne_nil seg post))
    · rw [runTimerLoop, dif_neg hcond] at hdec
      have hrange : ∀ e ∈ List.range' 1 (min C rem), 1 ≤ e ∧ e ≤ min C rem := by
        intro e he
        rw [List.mem_range'] at he
        omega
      have hnd : (List.range' 1 (min C rem)).Nodup :=
        List.nodup_range' 1 (min C rem) 1 Nat.one_pos
      by_cases h0 : rem - min C rem = 0
      · rw [if_pos h0] at hdec
        cases pre with
        | cons x pre' =>
            rw [List.cons_append] at hdec
            have habs := (List.cons.inj hdec).2
            exact absurd habs.symm
              (List.append_ne_nil_of_right_ne_nil pre' (List.cons_ne_nil seg post))
        | nil =>
            rw [List.nil_append] at hdec
            obtain ⟨rfl, hpost⟩ := List.cons.inj hdec
            have hiff := focusLoop_mem_iff (min C rem) rem (by omega) _
              hrange hnd t ht
            rw [show Note.break_starting_10s ∈ t.2 ↔
              (t.1 = min C rem - 10 ∧ 11 ≤ min C rem ∧ min C rem < rem)
              from hiff]
            constructor
            · rintro ⟨-, -, h3⟩
              omega
            · rintro ⟨-, -, habs⟩
              exact absurd hpost.symm habs
      · rw [if_neg h0] at hdec
        cases pre with
        | nil =>
            rw [List.nil_append] at hdec
            obtain ⟨rfl, hpost⟩ := List.cons.inj hdec
            have hiff := focusLoop_mem_iff (min C rem) rem (by omega) _
              hrange hnd t ht
            rw [show Note.break_starting_10s ∈ t.2 ↔
              (t.1 = min C rem - 10 ∧ 11 ≤ min C rem ∧ min C rem < rem)
              from hiff]
            constructor
            · rintro ⟨h1, h2, -⟩
              refine ⟨h1, h2, ?_⟩
              rw [← hpost]
              simp
            · rintro ⟨h1, h2, -⟩
              exact ⟨h1, h2, by omega⟩
        | cons x pre' =>
            rw [List.cons_append] at hdec
            have htail := (List.cons.inj hdec).2
            cases pre' with
            | nil =>
                rw [List.nil_append] at htail
                obtain ⟨rfl, -⟩ := List.cons.inj htail
                exact absurd hkind (by simp)
            | cons y pre'' =>
                rw [List.cons_append] at htail
                have htail2 := (List.cons.inj htail).2
                exact ih (rem - min C rem) (by omega) pre'' seg post
                  htail2 hkind t ht

/-- C7: over a whole run with a positive configuration: every phase emits
each named notification at most once (nothing is re-sent on the ticks of a
phase); `timer_started` is emitted exactly once, before the first phase,
and never by a phase; `timer_complete` is emitted exactly once, by the
budget-exhausting final focus chunk; and within any focus segment a tick
carries `break_starting_10s` exactly when it is the tick 10 seconds before
the segment's end and a rest phase follows that segment. -/
theorem C7_notifications_once (F R C : ℕ) (hF : 0 < F) (hR : 0 < R)
    (hC : 0 < C) :
    run_timer F R C = RunOutcome.ran [Note.timer_started] (runTimerLoop C R F) ∧
    (∀ seg ∈ runTimerLoop C R F, ∀ n : Note, (segNotes seg).count n ≤ 1) ∧
    ((runTimerLoop C R F).map segNotes).flatten.count Note.timer_started = 0 ∧
    ((runTimerLoop C R F).map segNotes).flatten.count Note.timer_complete = 1 ∧
    ((runTimerLoop C R F).getLast?).map Seg.postNotes =
      some [Note.timer_complete] ∧
    (∀ pre seg post, runTimerLoop C R F = pre ++ seg :: post →
      seg.kind = PhaseKind.focus →
      ∀ t ∈ seg.ticks,
        (Note.break_starting_10s ∈ t.2 ↔
          (t.1 = seg.duration - 10 ∧ 11 ≤ seg.duration ∧ post ≠ []))) := by
  refine ⟨?_, ?_, ?_, ?_, ?_, ?_⟩
  · rw [run_timer, if_neg (by omega)]
  · exact fun seg h n => runTimerLoop_once C R F seg h n
  · exact runTimerLoop_no_started C R F
  · exact runTimerLoop_complete_once C R hC F hF
  · exact runTimerLoop_last C R hC F hF
  · exact fun pre seg post hdec => runTimerLoop_bs10 C R hC F pre seg post hdec

/-- Witness for C7 at the concrete configuration 125/10/60. -/
theorem C7_notifications_once_witness :
    run_timer 125 10 60 =
      RunOutcome.ran [Note.timer_started] (runTimerLoop 60 10 125) ∧
    ((runTimerLoop 60 10 125).map segNotes).flatten.count
      Note.timer_complete = 1 := by
  obtain ⟨h1, -, -, h4, -, -⟩ :=
    C7_notifications_once 125 10 60 (by norm_num) (by norm_num) (by norm_num)
  exact ⟨h1, h4⟩

/-- C9 as stated is false on the code: `get_timer_state` recomputes
`elapsed_time = now - phase_start_time` without clamping (only
`time_remaining` is clamped with `max(0, ...)`), and a poll can occur after
a phase's nominal end while the phase is still current — the worker thread
only transitions on its next loop iteration and its `time.sleep(1)` calls
accumulate overshoot.  Here: a running focus phase that started at time 0
with duration 60, polled at time 61, reports `elapsed_time = 61 > 60`. -/
theorem C9_elapsed_counterexample :
    ¬ ((get_timer_state
          ⟨true, some PhaseKind.focus, some 0, 60, 60, 0⟩ 61).elapsed_time ≤
        (get_timer_state
          ⟨true, some PhaseKind.focus, some 0, 60, 60, 0⟩ 61).phase_duration) := by
  norm_num [get_timer_state]

/-- C9 amended: for every poll while a phase is active taken no later than
the phase's nominal end (`now ≤ phase_start_time + phase_duration`), the
reported `elapsed_time` satisfies `0 ≤ elapsed_time ≤ phase_duration`; and
at every poll, however late, the reported `time_remaining` is clamped
nonnegative. -/
theorem C9_elapsed_within_phase (st : TimerState) (now t0 : ℚ)
    (hrun : st.is_running = true) (hst : st.phase_start_time = some t0)
    (hnow : t0 ≤ now) :
    0 ≤ (get_timer_state st now).time_remaining ∧
    0 ≤ (get_timer_state st now).elapsed_time ∧
    (now ≤ t0 + st.phase_duration →
      (get_timer_state st now).elapsed_time ≤
        (get_timer_state st now).phase_duration) := by
  have hout : get_timer_state st now =
      { st with
          elapsed_time := now - t0
          time_remaining := max 0 (st.phase_duration - (now - t0)) } := by
    rw [get_timer_state, if_neg (by simp [hrun]), hst]
  rw [hout]
  refine ⟨le_max_left _ _, by simpa using hnow, fun hin => ?_⟩
  simp only
  linarith

/-- Witness for C9 (amended) at a mid-phase poll: focus phase started at 0,
duration 60, polled at 30. -/
theorem C9_elapsed_within_phase_witness :
    0 ≤ (get_timer_state
        ⟨true, some PhaseKind.focus, some 0, 60, 30, 30⟩ 30).time_remaining ∧
    0 ≤ (get_timer_state
        ⟨true, some PhaseKind.focus, some 0, 60, 30, 30⟩ 30).elapsed_time ∧
    (30 : ℚ) ≤ 0 + (60 : ℚ) ∧
    (get_timer_state
        ⟨true, some PhaseKind.focus, some 0, 60, 30, 30⟩ 30).elapsed_time ≤
      (get_timer_state
        ⟨true, some PhaseKind.focus, some 0, 60, 30, 30⟩ 30).phase_duration := by
  obtain ⟨h1, h2, h3⟩ := C9_elapsed_within_phase
    ⟨true, some PhaseKind.focus, some 0, 60, 30, 30⟩ 30 0 rfl rfl (by norm_num)
  exact ⟨h1, h2, by norm_num, h3 (by norm_num)⟩

/-! ## Theorems: C5 (temporal behavior of the detector) -/

/-- In a `(· ≤ ·)`-sorted list every member is at most the last element. -/
theorem le_getLast_of_sorted :
    ∀ l : List ℚ, l.Pairwise (· ≤ ·) → ∀ x ∈ l, ∀ hne : l ≠ [],
      x ≤ l.getLast hne := by
  intro l
  induction l with
  | nil =>
      intro _ x hx
      exact absurd hx (List.not_mem_nil x)
  | cons a l ih =>
      intro hp x hx hne
      rcases List.mem_cons.mp hx with rfl | hx
      · cases l with
        | nil => simp [List.getLast]
        | cons b l' =>
            rw [List.getLast_cons (List.cons_ne_nil b l')]
            exact (List.pairwise_cons.mp hp).1 _
              (List.getLast_mem (List.cons_ne_nil b l'))
      · cases l with
        | nil => exact absurd hx (List.not_mem_nil x)
        | cons b l' =>
            rw [List.getLast_cons (List.cons_ne_nil b l')]
            exact ih (List.pairwise_cons.mp hp).2 x hx (List.cons_ne_nil b l')

/-- The detector run splits along trace concatenation. -/
theorem runDetector_append (s : Option ℚ) (l1 l2 : List (Bool × ℚ)) :
    runDetector s (l1 ++ l2) =
      ((runDetector s l1).1 ++ (runDetector (runDetector s l1).2 l2).1,
        (runDetector (runDetector s l1).2 l2).2) := by
  induction l1 generalizing s with
  | nil => simp [runDetector]
  | cons p l1 ih =>
      obtain ⟨c, tm⟩ := p
      simp [runDetector, ih]

/-- While every tick stays strictly below the threshold, the detector keeps
its accrual start and fires nothing. -/
theorem runDetector_below (a : ℚ) (ts : List ℚ)
    (h : ∀ u ∈ ts, u - a < DISTRACTION_THRESHOLD) :
    runDetector (some a) (ts.map fun u => (true, u)) =
      (List.replicate ts.length false, some a) := by
  induction ts with
  | nil => rfl
  | cons u ts ih =>
      have hu := h u (List.mem_cons_self u ts)
      have hstep : distractionStep (some a) true u = (some a, false) := by
        simp [distractionStep, not_le.mpr hu]
      simp only [List.map_cons, runDetector, hstep]
      rw [ih fun v hv => h v (List.mem_cons_of_mem _ hv)]
      simp [List.replicate_succ]

/-- The detector's fire pattern over a continuously-true trace that starts
at `t0`, stays strictly below `t0 + threshold` for a while, reaches exactly
`t0 + threshold`, and then stays there: all ticks are silent except the
single one that first reaches the threshold. -/
theorem runDetector_trace (t0 : ℚ) (low rtail : List ℚ)
    (hlow : ∀ u ∈ low, u < t0 + DISTRACTION_THRESHOLD)
    (hrt : ∀ u ∈ rtail, u = t0 + DISTRACTION_THRESHOLD) :
    (runDetector none
        (((t0 :: low) ++ (t0 + DISTRACTION_THRESHOLD) :: rtail).map
          fun u => (true, u))).1 =
      List.replicate (1 + low.length) false ++
        true :: List.replicate rtail.length false := by
  have hstep0 : distractionStep none true t0 = (some t0, false) := by
    simp [distractionStep]
  have hfire : distractionStep (some t0) true (t0 + DISTRACTION_THRESHOLD) =
      (none, true) := by
    simp [distractionStep]
  have hrtail : (runDetector none (rtail.map fun u => (true, u))).1 =
      List.replicate rtail.length false := by
    cases rtail with
    | nil => rfl
    | cons v vs =>
        have hv : v = t0 + DISTRACTION_THRESHOLD := hrt v (List.mem_cons_self v vs)
        have hstepv : distractionStep none true v = (some v, false) := by
          simp [distractionStep]
        simp only [List.map_cons, runDetector, hstepv]
        rw [runDetector_below v vs fun u hu => by
          rw [hrt u (List.mem_cons_of_mem _ hu), hv]
          simp [DISTRACTION_THRESHOLD]]
        simp [List.replicate_succ]
  rw [List.map_append, runDetector_append]
  have hpart1 : runDetector none ((t0 :: low).map fun u => (true, u)) =
      (List.replicate (1 + low.length) false, some t0) := by
    simp only [List.map_cons, runDetector, hstep0]
    rw [runDetector_below t0 low fun u hu => by
      have := hlow u hu
      linarith]
    simp [List.replicate_succ, Nat.add_comm]
  have hpart2 : (runDetector (some t0)
      (((t0 + DISTRACTION_THRESHOLD) :: rtail).map fun u => (true, u))).1 =
      true :: List.replicate rtail.length false := by
    simp only [List.map_cons, runDetector, hfire]
    rw [hrtail]
  rw [hpart1]
  simp only
  rw [hpart2]

/-- C5: along any tick trace on which the condition is continuously true,
with nondecreasing wall-clock times spanning exactly the threshold
duration, the detector fires exactly once, at the tick whose time first
reaches `start + threshold` (all other ticks are silent) — and, at the
step level, a fire can never occur when the elapsed time since the accrual
start is below the threshold. -/
theorem C5_threshold_exactly_one_fire (t0 : ℚ) (ts : List ℚ)
    (hmono : List.Chain' (· ≤ ·) (t0 :: ts))
    (hlast : (t0 :: ts).getLast (List.cons_ne_nil t0 ts) =
      t0 + DISTRACTION_THRESHOLD) :
    (∃ i j,
      (runDetector none ((t0 :: ts).map fun u => (true, u))).1 =
        List.replicate i false ++ true :: List.replicate j false ∧
      (t0 :: ts).get? i = some (t0 + DISTRACTION_THRESHOLD) ∧
      (runDetector none ((t0 :: ts).map fun u => (true, u))).1.count true = 1) ∧
    (∀ (a now : ℚ) (c : Bool),
      (distractionStep (some a) c now).2 = true →
      DISTRACTION_THRESHOLD ≤ now - a) := by
  constructor
  · have hP : (t0 :: ts).Pairwise (· ≤ ·) := List.chain'_iff_pairwise.mp hmono
    have hbound : ∀ u ∈ ts, u ≤ t0 + DISTRACTION_THRESHOLD := by
      intro u hu
      have := le_getLast_of_sorted (t0 :: ts) hP u
        (List.mem_cons_of_mem t0 hu) (List.cons_ne_nil t0 ts)
      rw [hlast] at this
      exact this
    have htsne : ts ≠ [] := by
      intro hts
      subst hts
      simp only [List.getLast_singleton] at hlast
      have : (DISTRACTION_THRESHOLD : ℚ) = 0 := by linarith
      norm_num [DISTRACTION_THRESHOLD] at this
    set p : ℚ → Bool := fun u => decide (u < t0 + DISTRACTION_THRESHOLD) with hp
    have hsplit := List.takeWhile_append_dropWhile p ts
    have hlowmem : ∀ u ∈ ts.takeWhile p, u < t0 + DISTRACTION_THRESHOLD := by
      intro u hu
      have := List.mem_takeWhile_imp hu
      rw [hp] at this
      simpa using this
    have hlastmem : (t0 :: ts).getLast (List.cons_ne_nil t0 ts) ∈ ts := by
      rw [List.getLast_cons htsne]
      exact List.getLast_mem htsne
    have hrestne : ts.dropWhile p ≠ [] := by
      intro hdrop
      have hmem : t0 + DISTRACTION_THRESHOLD ∈ ts := hlast ▸ hlastmem
      rw [← hsplit, hdrop, List.append_nil] at hmem
      have := hlowmem _ hmem
      linarith
    obtain ⟨h, rtail, hrest⟩ := List.exists_cons_of_ne_nil hrestne
    have hhp : p h = false := by
      have := List.head?_dropWhile_not p ts
      rw [hrest] at this
      simpa using this
    have hhmem : h ∈ ts := by
      rw [← hsplit, hrest]
      exact List.mem_append_right _ (List.mem_cons_self h rtail)
    have hh : h = t0 + DISTRACTION_THRESHOLD := by
      have h1 : ¬ (h < t0 + DISTRACTION_THRESHOLD) := by
        rw [hp] at hhp
        simpa using hhp
      have h2 := hbound h hhmem
      linarith
    have hrtmem : ∀ u ∈ rtail, u = t0 + DISTRACTION_THRESHOLD := by
      intro u hu
      have hsub : List.Sublist (ts.dropWhile p) ts := List.dropWhile_sublist p
      have hPrest : (ts.dropWhile p).Pairwise (· ≤ ·) :=
        ((List.pairwise_cons.mp hP).2).sublist hsub
      rw [hrest] at hPrest
      have hge : h ≤ u := (List.pairwise_cons.mp hPrest).1 u hu
      have hle : u ≤ t0 + DISTRACTION_THRESHOLD := by
        apply hbound
        rw [← hsplit, hrest]
        exact List.mem_append_right _ (List.mem_cons_of_mem h hu)
      rw [hh] at hge
      linarith
    have hts : ts = ts.takeWhile p ++ (t0 + DISTRACTION_THRESHOLD) :: rtail := by
      conv_lhs => rw [← hsplit]
      rw [hrest, hh]
    have hcons : t0 :: ts = (t0 :: ts.takeWhile p) ++
        (t0 + DISTRACTION_THRESHOLD) :: rtail := by
      rw [List.cons_append]
      exact congrArg (t0 :: ·) hts
    refine ⟨1 + (ts.takeWhile p).length, rtail.length, ?_, ?_, ?_⟩
    · rw [hcons]
      exact runDetector_trace t0 (ts.takeWhile p) rtail hlowmem hrtmem
    · rw [hcons]
      rw [List.get?_append_right (by simp only [List.length_cons]; omega)]
      simp only [List.length_cons]
      rw [show 1 + (ts.takeWhile p).length - ((ts.takeWhile p).length + 1) = 0
        from by omega]
      rfl
    · rw [hcons]
      rw [runDetector_trace t0 (ts.takeWhile p) rtail hlowmem hrtmem]
      simp [List.count_replicate]
  · intro a now c hfired
    cases c with
    | false => simp [distractionStep] at hfired
    | true =>
        by_cases hth : DISTRACTION_THRESHOLD ≤ now - a
        · exact hth
        · simp [distractionStep, hth] at hfired

/-- Witness for C5 at the concrete trace 0, 2, 4 (threshold 4 spanned
exactly): exactly one fire. -/
theorem C5_threshold_exactly_one_fire_witness :
    (runDetector none (([0, 2, 4] : List ℚ).map fun u => (true, u))).1.count
      true = 1 := by
  obtain ⟨⟨i, j, -, -, hcount⟩, -⟩ := C5_threshold_exactly_one_fire 0 [2, 4]
    (by simp [List.chain'_cons]; norm_num)
    (by norm_num [List.getLast, DISTRACTION_THRESHOLD])
  exact hcount

end SpiritCompanion
